import Mathlib

set_option maxRecDepth 8192

/-!
Verification development for the `openwhisper-grammar-spelling-server`
text-cleanup pipeline (`server.py`).  The Python code is shallowly embedded:
each compiled regular expression becomes a `Rx` value, `re.sub` becomes an
executable backtracking substitution function with Python's leftmost /
priority semantics, exceptions become `Option` (with `none` standing for a
raised exception), and module-level mutable state (the user-replacement
cache) becomes explicit state passing.
-/

namespace Cleanup

/-! ### Character model

Python string methods (`.upper()`, `.isupper()`, `.strip()`) and the `re`
module's `\w`, `\s`, `IGNORECASE` are modelled for the ASCII range plus the
Polish letters that occur in the rule tables (`ą ć ę ł ń ó ś ź ż`). -/

/-- Uppercase Polish letter to its lowercase partner, `none` otherwise. -/
def plLower (c : Char) : Option Char :=
  match c with
  | 'Ą' => some 'ą' | 'Ć' => some 'ć' | 'Ę' => some 'ę' | 'Ł' => some 'ł'
  | 'Ń' => some 'ń' | 'Ó' => some 'ó' | 'Ś' => some 'ś' | 'Ź' => some 'ź'
  | 'Ż' => some 'ż' | _ => none

/-- Lowercase Polish letter to its uppercase partner, `none` otherwise. -/
def plUpper (c : Char) : Option Char :=
  match c with
  | 'ą' => some 'Ą' | 'ć' => some 'Ć' | 'ę' => some 'Ę' | 'ł' => some 'Ł'
  | 'ń' => some 'Ń' | 'ó' => some 'Ó' | 'ś' => some 'Ś' | 'ź' => some 'Ź'
  | 'ż' => some 'Ż' | _ => none

def isAsciiUpper (c : Char) : Bool := 'A' ≤ c && c ≤ 'Z'
def isAsciiLower (c : Char) : Bool := 'a' ≤ c && c ≤ 'z'

/-- Python `str.isupper` on one character: an uppercase cased character. -/
def pyIsUpperChar (c : Char) : Bool := isAsciiUpper c || (plLower c).isSome

def pyIsLowerChar (c : Char) : Bool := isAsciiLower c || (plUpper c).isSome

/-- A cased character (has distinct upper/lower forms). -/
def pyIsCased (c : Char) : Bool := pyIsUpperChar c || pyIsLowerChar c

/-- Python `str.lower` on one character. -/
def pyToLower (c : Char) : Char :=
  if isAsciiUpper c then Char.toLower c else (plLower c).getD c

/-- Python `str.upper` on one character. -/
def pyToUpper (c : Char) : Char :=
  if isAsciiLower c then Char.toUpper c else (plUpper c).getD c

/-- Python `str.isupper`: at least one cased character and every cased
character uppercase. -/
def pyIsUpper (l : List Char) : Bool :=
  l.any pyIsCased && l.all (fun c => !pyIsCased c || pyIsUpperChar c)

/-- `\w` of Python `re` restricted to the alphabet used here:
ASCII alphanumerics, underscore, and the Polish letters. -/
def isWordChar (c : Char) : Bool :=
  c.isAlphanum || c == '_' || (plLower c).isSome || (plUpper c).isSome

/-- `\s` of Python `re` (ASCII whitespace). -/
def isPyWs (c : Char) : Bool :=
  c == ' ' || c == '\t' || c == '\n' || c == '\r' ||
  c == Char.ofNat 11 || c == Char.ofNat 12

/-- Python `str.strip()`: drop whitespace from both ends. -/
def pyStrip (l : List Char) : List Char :=
  ((l.dropWhile isPyWs).reverse.dropWhile isPyWs).reverse

/-! ### Regular expressions

Abstract syntax for the fragment of Python `re` used by `server.py`:
literal characters (as predicates, so `IGNORECASE` is a predicate per
character), concatenation, alternation (tried left to right), greedy `*`
(hence `+` as `r·r*`), word boundary `\b`, lookahead `(?=...)`, and
numbered capturing groups. -/

inductive Rx where
  | fail : Rx
  | eps : Rx
  | ch (p : Char → Bool) : Rx
  | cat (r1 r2 : Rx) : Rx
  | alt (r1 r2 : Rx) : Rx
  | star (r1 : Rx) : Rx
  | wordB : Rx
  | look (r1 : Rx) : Rx
  | grp (i : Nat) (r1 : Rx) : Rx

/-- Capture environment: most recent capture of each group first. -/
abbrev Caps := List (Nat × List Char)

/-- The character just before the current position, after consuming `n`
characters of `rest` (used for `\b`). -/
def prevAfter (prev : Option Char) (rest : List Char) (n : Nat) : Option Char :=
  match (rest.take n).getLast? with
  | some c => some c
  | none => prev

/-- One greedy-star layer: all outcomes of iterating `step` (each iteration
must consume at least one character, as in Python's repeat handling of empty
matches), longest-first, ending with the zero-iteration outcome. -/
def rxStarIter (step : Option Char → List Char → Caps → List (Nat × Caps)) :
    Nat → Option Char → List Char → Caps → List (Nat × Caps)
  | 0, _, _, caps => [(0, caps)]
  | fuel+1, prev, rest, caps =>
      ((step prev rest caps).filter (fun x => x.1 != 0)).flatMap
        (fun x => (rxStarIter step fuel (prevAfter prev rest x.1) (rest.drop x.1) x.2).map
            (fun y => (x.1 + y.1, y.2)))
      ++ [(0, caps)]

/-- All ways `r` can match a prefix of `rest` (with `prev` the character
before the current position), as pairs (consumed length, captures), in
Python's backtracking priority order (first element = Python's match). -/
def rxM : Rx → Option Char → List Char → Caps → List (Nat × Caps)
  | .fail, _, _, _ => []
  | .eps, _, _, caps => [(0, caps)]
  | .ch p, _, rest, caps =>
      match rest with
      | c :: _ => if p c then [(1, caps)] else []
      | [] => []
  | .cat r1 r2, prev, rest, caps =>
      (rxM r1 prev rest caps).flatMap (fun x =>
        (rxM r2 (prevAfter prev rest x.1) (rest.drop x.1) x.2).map
          (fun y => (x.1 + y.1, y.2)))
  | .alt r1 r2, prev, rest, caps =>
      rxM r1 prev rest caps ++ rxM r2 prev rest caps
  | .star r1, prev, rest, caps =>
      rxStarIter (rxM r1) (rest.length + 1) prev rest caps
  | .wordB, prev, rest, caps =>
      let a := match prev with | some c => isWordChar c | none => false
      let b := match rest with | c :: _ => isWordChar c | [] => false
      if a != b then [(0, caps)] else []
  | .look r1, prev, rest, caps =>
      if (rxM r1 prev rest caps).isEmpty then [] else [(0, caps)]
  | .grp i r1, prev, rest, caps =>
      (rxM r1 prev rest caps).map (fun x => (x.1, (i, rest.take x.1) :: x.2))

/-- One scanning step of `re.sub` with a fallible replacement callback
(`none` = the callback raised): at the current position take the engine's
first outcome; an empty match emits the replacement and copies one character,
per Python's handling; with no match, copy one character.  `recur` continues
the scan. -/
def rxSubGo (r : Rx) (f : List Char → Caps → Option (List Char))
    (recur : Option Char → List Char → Option (List Char))
    (prev : Option Char) (rest : List Char) : Option (List Char) :=
  match (rxM r prev rest []).head? with
  | some x =>
      if x.1 = 0 then
        match f [] x.2 with
        | none => none
        | some rep =>
            match rest with
            | [] => some rep
            | c :: rest2 =>
                match recur (some c) rest2 with
                | none => none
                | some t => some (rep ++ c :: t)
      else
        match f (rest.take x.1) x.2 with
        | none => none
        | some rep =>
            match recur (prevAfter prev rest x.1) (rest.drop x.1) with
            | none => none
            | some t => some (rep ++ t)
  | none =>
      match rest with
      | [] => some []
      | c :: rest2 =>
          match recur (some c) rest2 with
          | none => none
          | some t => some (c :: t)

/-- The full left-to-right scan; `fuel` only needs to exceed the text
length, since every step either terminates or consumes at least one
character. -/
def rxSubFuel (r : Rx) (f : List Char → Caps → Option (List Char)) :
    Nat → Option Char → List Char → Option (List Char)
  | 0, _, rest => some rest
  | fuel+1, prev, rest => rxSubGo r f (rxSubFuel r f fuel) prev rest

/-- `pattern.sub(f, text)` at the start of the text. -/
def rxSub (r : Rx) (f : List Char → Caps → Option (List Char))
    (s : List Char) : Option (List Char) :=
  rxSubFuel r f (s.length + 1) none s

/-! ### Pattern-building helpers mirroring the regex source syntax. -/

/-- A single case-insensitive literal character (`re.IGNORECASE`). -/
def ciChar (c : Char) : Rx := .ch (fun x => pyToLower x == pyToLower c)

/-- A case-insensitive literal string. -/
def ciStr (s : String) : Rx := s.data.foldr (fun c r => .cat (ciChar c) r) .eps

/-- Sequence a list of patterns. -/
def seqR (l : List Rx) : Rx := l.foldr .cat .eps

/-- Alternation over a list, tried in order. -/
def altR : List Rx → Rx
  | [] => .fail
  | [r] => r
  | r :: rest => .alt r (altR rest)

/-- Alternation of case-insensitive literal words. -/
def wordsAlt (ws : List String) : Rx := altR (ws.map ciStr)

/-- `\s` as a pattern. -/
def wsCh : Rx := .ch isPyWs

/-- Greedy `r+` = `r r*`. -/
def plusR (r : Rx) : Rx := .cat r (.star r)

/-- A literal word followed by `\b` (used inside some lookahead lists). -/
def cwb (s : String) : Rx := .cat (ciStr s) .wordB

/-! ### The filler patterns (`PL_FILLERS`, `EN_FILLERS`) -/

/-- `PL_FILLERS`: alternation in source order inside `\b(?:...)\b`,
`IGNORECASE`; the elongated interjections are `yy y+` etc. -/
def PL_FILLERS : Rx := seqR [.wordB, altR [
  ciStr "no więc", ciStr "no właśnie", ciStr "no wiesz", ciStr "no nie",
  ciStr "no tak", ciStr "tak jakby", ciStr "w zasadzie",
  .cat (ciStr "yy") (plusR (ciChar 'y')), .cat (ciStr "ee") (plusR (ciChar 'e')),
  .cat (ciStr "hm") (plusR (ciChar 'm')), .cat (ciStr "h") (plusR (ciChar 'm')),
  ciStr "no", ciStr "znaczy", ciStr "jakby", ciStr "wiesz",
  ciStr "powiedzmy", ciStr "generalnie", ciStr "kurczę"], .wordB]

/-- `EN_FILLERS`: alternation in source order inside `\b(?:...)\b`,
`IGNORECASE`. -/
def EN_FILLERS : Rx := seqR [.wordB, altR [
  .cat (ciStr "u") (plusR (ciChar 'm')), .cat (ciStr "u") (plusR (ciChar 'h')),
  .cat (ciStr "hm") (plusR (ciChar 'm')), .cat (ciStr "h") (plusR (ciChar 'm')),
  ciStr "like", ciStr "you know", ciStr "basically", ciStr "actually",
  ciStr "literally", ciStr "i mean", ciStr "sort of", ciStr "kind of",
  ciStr "right"], .wordB]

/-- `re.sub(r"  +", " ", text)`: collapse each maximal run of two or more
spaces to a single space.  Formulated as left-to-right deletion of the first
space of every adjacent pair, which performs exactly that replacement. -/
def collapseSpaces : List Char → List Char
  | [] => []
  | [c] => [c]
  | c1 :: c2 :: rest =>
      if c1 = ' ' && c2 = ' ' then collapseSpaces (c2 :: rest)
      else c1 :: collapseSpaces (c2 :: rest)

/-! ### Word-correction rules -/

/-- `WordCorrectionRule`: compiled pattern, replacement template,
human-readable description. -/
structure CRule where
  pat : Rx
  replacement : String
  description : String

/-- `_BACKREF_RE.search(replacement)`: does the template contain a backslash
immediately followed by a digit? -/
def hasBackref : List Char → Bool
  | '\\' :: d :: rest => d.isDigit || hasBackref (d :: rest)
  | _ :: rest => hasBackref rest
  | [] => false

/-- Group lookup in a capture environment (most recent first). -/
def capsLookup (caps : Caps) (g : Nat) : Option (List Char) :=
  match caps with
  | [] => none
  | (i, s) :: rest => if i = g then some s else capsLookup rest g

/-- Expansion of a `re.sub` string template: `\N` is replaced by group `N`'s
capture, `\\` by a backslash; a reference to an absent group or a stray
backslash is an error (`none`), as in Python. -/
def expandTemplate : List Char → Caps → Option (List Char)
  | [], _ => some []
  | c :: rest, caps =>
      if c = '\\' then
        match rest with
        | [] => none
        | d :: rest2 =>
            if d.isDigit then
              match capsLookup caps (d.toNat - 48) with
              | some s => (expandTemplate rest2 caps).map (s ++ ·)
              | none => none
            else if d = '\\' then (expandTemplate rest2 caps).map ('\\' :: ·)
            else none
      else (expandTemplate rest caps).map (c :: ·)

/-- `_preserve_case_replacement`'s inner `_replacer`, on the matched text:
`original.isupper()` → upper-case the replacement; `original[0].isupper()` →
capitalize the replacement; otherwise return it unchanged.  `none` models the
`IndexError` raised by `original[0]` / `replacement[0]` on an empty string. -/
def preserveCaseList (replacement original : List Char) : Option (List Char) :=
  if pyIsUpper original then some (replacement.map pyToUpper)
  else
    match original with
    | [] => none
    | c :: _ =>
        if pyIsUpperChar c then
          match replacement with
          | [] => none
          | r :: rs => some (pyToUpper r :: rs)
        else some replacement

/-- Apply one rule by global substitution: a template containing a positional
backreference is substituted literally, any other template goes through the
case-preserving replacer (`apply_word_corrections` / `apply_user_replacements`
inner branch).  `none` models an exception escaping `pattern.sub`. -/
def applyRuleL (r : CRule) (t : List Char) : Option (List Char) :=
  if hasBackref r.replacement.data then
    rxSub r.pat (fun _ caps => expandTemplate r.replacement.data caps) t
  else
    rxSub r.pat (fun m _ => preserveCaseList r.replacement.data m) t

/-- `_PL_WORD_CORRECTION_RULES_RAW`, compiled, in declaration order. -/
def PL_RULES : List CRule := [
  ⟨seqR [.wordB, ciStr "na", plusR wsCh, ciStr "prawdę", .wordB],
    "naprawdę", "na prawdę -> naprawdę"⟩,
  ⟨seqR [.wordB, ciStr "na", plusR wsCh, ciStr "przeciwko", .wordB],
    "naprzeciwko", "na przeciwko -> naprzeciwko"⟩,
  ⟨seqR [.wordB, ciStr "po", plusR wsCh, ciStr "nad", plusR wsCh, ciStr "to", .wordB],
    "ponadto", "po nad to -> ponadto"⟩,
  ⟨seqR [.wordB, ciStr "po", plusR wsCh, ciStr "mimo", .wordB],
    "pomimo", "po mimo -> pomimo"⟩,
  ⟨seqR [.wordB, ciStr "dla", plusR wsCh, ciStr "tego", .wordB],
    "dlatego", "dla tego -> dlatego"⟩,
  ⟨seqR [.wordB, ciStr "po", plusR wsCh, ciStr "nie", plusR wsCh, ciStr "waż", .wordB],
    "ponieważ", "po nie waż -> ponieważ"⟩,
  ⟨seqR [.wordB, ciStr "napewno", .wordB], "na pewno", "napewno -> na pewno"⟩,
  ⟨seqR [.wordB, ciStr "wogóle", .wordB], "w ogóle", "wogóle -> w ogóle"⟩,
  ⟨seqR [.wordB, ciStr "narazie", .wordB], "na razie", "narazie -> na razie"⟩,
  ⟨seqR [.wordB, ciStr "conajmniej", .wordB], "co najmniej", "conajmniej -> co najmniej"⟩,
  ⟨seqR [.wordB, ciStr "poprostu", .wordB], "po prostu", "poprostu -> po prostu"⟩,
  ⟨seqR [.wordB, ciStr "przedewszystkim", .wordB], "przede wszystkim",
    "przedewszystkim -> przede wszystkim"⟩]

/-- `_EN_WORD_CORRECTION_RULES_RAW`, compiled, in declaration order. -/
def EN_RULES : List CRule := [
  ⟨seqR [.wordB, ciStr "your", .wordB, .look (seqR [plusR wsCh, wordsAlt
      ["going","doing","being","making","getting","coming","running","saying",
       "looking","trying","giving","taking","having","welcome","not","right","wrong"]])],
    "you're", "your + verb -> you're"⟩,
  ⟨seqR [.wordB, ciStr "its", .wordB, .look (seqR [plusR wsCh, altR
      [ciStr "going", ciStr "doing", ciStr "being", ciStr "getting", ciStr "making",
       ciStr "coming", ciStr "running", ciStr "not", ciStr "been", ciStr "just",
       ciStr "about", ciStr "really", ciStr "very", ciStr "always", ciStr "never",
       ciStr "still", ciStr "already", ciStr "only", ciStr "also",
       cwb "a", cwb "the", cwb "so", cwb "ok", cwb "okay",
       cwb "true", cwb "possible", cwb "impossible", cwb "important"]])],
    "it's", "its + verb/adv -> it's"⟩,
  ⟨seqR [.wordB, ciStr "there", .wordB, .look (seqR [plusR wsCh, wordsAlt
      ["going","doing","being","making","getting","coming","running","saying",
       "looking","trying","giving","playing","telling","leaving","taking","having",
       "showing","not","always","never","just","really","still","already"]])],
    "they're", "there + verb -> they're"⟩,
  ⟨seqR [.wordB, ciStr "their", .wordB, .look (seqR [plusR wsCh, wordsAlt
      ["going","doing","being","making","getting","coming","running","saying",
       "looking","trying","giving","playing","telling","leaving","taking","having",
       "showing","not","always","never","just","really","still","already"]])],
    "they're", "their + verb -> they're"⟩,
  ⟨seqR [.wordB, ciStr "whose", .wordB, .look (seqR [plusR wsCh, wordsAlt
      ["going","doing","being","making","getting","coming","running","not","been",
       "there","here"]])],
    "who's", "whose + verb -> who's"⟩,
  ⟨seqR [.wordB, ciStr "weather", .wordB, .look (seqR [plusR wsCh, altR
      [ciStr "or", ciStr "it", ciStr "you", ciStr "we", ciStr "they", ciStr "he",
       ciStr "she", cwb "to", cwb "not"]])],
    "whether", "weather + clause -> whether"⟩,
  ⟨seqR [.wordB, .grp 1 (wordsAlt
      ["more","less","better","worse","bigger","smaller","larger","higher","lower",
       "faster","slower","older","younger","harder","easier","rather","other"]),
     plusR wsCh, ciStr "then", .wordB],
    "\\1 than", "comparative + then -> than"⟩,
  ⟨seqR [.wordB, .grp 1 (altR
      [ciStr "the", .cat (ciChar 'a') (.alt (ciChar 'n') .eps), ciStr "no",
       ciStr "any", ciStr "this", ciStr "that", ciStr "its", ciStr "positive",
       ciStr "negative"]),
     plusR wsCh, ciStr "affect", .wordB],
    "\\1 effect", "article + affect -> effect"⟩,
  ⟨seqR [.wordB, .grp 1 (wordsAlt
      ["will","would","could","can","may","might","to","not"]),
     plusR wsCh, ciStr "effect", .wordB],
    "\\1 affect", "modal + effect -> affect"⟩,
  ⟨seqR [.wordB, .grp 1 (wordsAlt
      ["to","will","would","could","gonna","might","can","don't","didn't","won't",
       "cannot"]),
     plusR wsCh, ciStr "loose", .wordB],
    "\\1 lose", "verb context + loose -> lose"⟩,
  ⟨seqR [.wordB, .grp 1 (wordsAlt ["would","could","should","might","must"]),
     plusR wsCh, ciStr "of", .wordB],
    "\\1 have", "modal + of -> have"⟩,
  ⟨seqR [.wordB, ciStr "alot", .wordB], "a lot", "alot -> a lot"⟩,
  ⟨seqR [.wordB, .grp 1 (wordsAlt ["is","are","was","were","am","be","been"]),
     plusR wsCh, ciStr "to", .wordB, .look (seqR [plusR wsCh, wordsAlt
      ["big","small","large","much","many","few","little","hard","easy","late",
       "early","fast","slow","long","short","hot","cold","old","young","good",
       "bad","high","low","far","close","loud","quiet","expensive","cheap",
       "difficult","simple"]])],
    "\\1 too", "copula + to + adj -> too"⟩]

/-- `apply_word_corrections`'s loop body over a rule list: apply the rules in
order, each to the output of the previous one; an exception (`none`) is
caught and the text accumulated so far is returned. -/
def applyRulesLoop : List CRule → List Char → List Char
  | [], t => t
  | r :: rs, t =>
      match applyRuleL r t with
      | none => t
      | some t2 => applyRulesLoop rs t2

/-- `apply_word_corrections(text, lang)`. -/
def applyWordCorrections (text : String) (lang : String) : String :=
  ⟨applyRulesLoop (if lang = "pl" then PL_RULES else EN_RULES) text.data⟩

/-! ### Filler removal and English ITN -/

/-- The filler substitution alone (the replacement is the literal empty
string, which never raises). -/
def fillerSub (lang : String) (t : List Char) : List Char :=
  (rxSub (if lang = "pl" then PL_FILLERS else EN_FILLERS) (fun _ _ => some []) t).getD t

/-- `remove_fillers(text, lang)`: strip fillers, collapse runs of spaces,
trim. -/
def removeFillers (text : String) (lang : String) : String :=
  ⟨pyStrip (collapseSpaces (fillerSub lang text.data))⟩

/-- `EN_NUMBER_PATTERN`: `\b((?:(?:zero|...|and)\s*)+)\b`, `IGNORECASE`,
alternation in source order. -/
def EN_NUMBER_PATTERN : Rx :=
  seqR [.wordB,
    .grp 1 (plusR (.cat (wordsAlt
      ["zero","one","two","three","four","five","six","seven","eight","nine",
       "ten","eleven","twelve","thirteen","fourteen","fifteen","sixteen",
       "seventeen","eighteen","nineteen","twenty","thirty","forty","fifty",
       "sixty","seventy","eighty","ninety","hundred","thousand","million",
       "billion","trillion","and"]) (.star wsCh))),
    .wordB]

/-- `_en_itn`'s `_replace` callback: parse the trimmed run; on success append
one space when the raw match both differs from its trim and ends in a space;
on parser failure (exception) return the raw run unchanged. -/
def itnReplace (p : String → Option Int) (raw : List Char) : Option (List Char) :=
  let fragment := pyStrip raw
  match p ⟨fragment⟩ with
  | some n =>
      some ((toString n).data ++
        (if raw ≠ fragment && raw.getLast? == some ' ' then [' '] else []))
  | none => some raw

/-- `_en_itn(text)` with the external `text2num` as a parameter
(`none` = library not installed). -/
def enItn (p : Option (String → Option Int)) (text : String) : String :=
  match p with
  | none => text
  | some p =>
      ⟨(rxSub EN_NUMBER_PATTERN (fun m _ => itnReplace p m) text.data).getD text.data⟩

/-! ### User replacement store

The configuration resource is modelled as parsed JSON (`JVal`); Python's
`None` and JSON `null` coincide, so `entry.get(k)` returning `None` covers
both a missing key and an explicit `null`. -/

inductive JVal where
  | jnull : JVal
  | jbool (b : Bool) : JVal
  | jnum (n : Int) : JVal
  | jstr (s : String) : JVal
  | jarr (l : List JVal) : JVal
  | jobj (fields : List (String × JVal)) : JVal

/-- `dict.get(k)` (first binding wins; JSON objects have unique keys). -/
def jlookup : List (String × JVal) → String → Option JVal
  | [], _ => none
  | (k, v) :: rest, key => if k = key then some v else jlookup rest key

/-- A user rule: compiled `CRule` plus optional language filter. -/
abbrev URule := CRule × Option String

/-- The rule built from a validated entry:
`re.compile(r"\b" + re.escape(from_text) + r"\b", re.IGNORECASE)`. -/
def mkUserRule (fromText toText : String) : CRule :=
  ⟨seqR [.wordB, ciStr fromText, .wordB], toText, fromText ++ " -> " ++ toText⟩

/-- The loop body of `_load_user_replacements` for one entry: skip anything
that is not an object with a non-empty string `from` and a string `to`
(Python truthiness makes every non-string and the empty string fail the
`from` check; `to` may be empty); an invalid `lang` drops the filter. -/
def entryRule (e : JVal) : Option URule :=
  match e with
  | .jobj fields =>
      match jlookup fields "from" with
      | some (.jstr f) =>
          if f = "" then none
          else
            match jlookup fields "to" with
            | some (.jstr t) =>
                let langFilter :=
                  match jlookup fields "lang" with
                  | some (.jstr "pl") => some "pl"
                  | some (.jstr "en") => some "en"
                  | _ => none
                some (mkUserRule f t, langFilter)
            | _ => none
      | _ => none
  | _ => none

/-- The `for` loop of `_load_user_replacements`: validate each entry in
order, appending the rules of valid ones. -/
def loadRulesLoop : List JVal → List URule
  | [] => []
  | e :: rest =>
      match entryRule e with
      | some r => r :: loadRulesLoop rest
      | none => loadRulesLoop rest

/-- `_load_user_replacements()`.  `readResult = none` models a read or JSON
parse failure (caught, yielding `[]`).  A top-level object's `rules` value is
iterated with `enumerate`; a string iterates its characters and an object its
keys, while any other non-list value raises `TypeError` — which nothing in
the source catches (`none` result). -/
def loadUserReplacements (readResult : Option JVal) : Option (List URule) :=
  match readResult with
  | none => some []
  | some data =>
      match data with
      | .jobj fields =>
          match (jlookup fields "rules").getD (.jarr []) with
          | .jarr l => some (loadRulesLoop l)
          | .jstr s => some (loadRulesLoop (s.data.map (fun c => .jstr ⟨[c]⟩)))
          | .jobj f2 => some (loadRulesLoop (f2.map (fun kv => .jstr kv.1)))
          | _ => none
      | .jarr l => some (loadRulesLoop l)
      | _ => some []

/-- The module-level cache: current rules and last observed mtime. -/
structure StoreState where
  rules : List URule
  mtime : Option Nat

/-- The filesystem as seen by the store: `none` when `stat` raises
(file missing), otherwise the mtime and the read/parse result. -/
abbrev StoreFs := Option (Nat × Option JVal)

/-- `_get_user_replacements()`: returns the possibly-updated state and the
rule list; `none` models the uncaught `TypeError` from a reload of a
malformed resource. -/
def getUserReplacements (fs : StoreFs) (s : StoreState) :
    Option (StoreState × List URule) :=
  match fs with
  | none =>
      if s.mtime.isSome then some (⟨[], none⟩, []) else some (s, s.rules)
  | some (m, content) =>
      if s.mtime = some m then some (s, s.rules)
      else
        match loadUserReplacements content with
        | none => none
        | some rules => some (⟨rules, some m⟩, rules)

/-! ### Pipeline stages and orchestrator -/

/-- The optional external collaborators (`none` = library absent or model
not loaded); each function returns `none` when the call raises. -/
structure Collabs where
  detect : Option (String → Option String)
  plNorm : Option (String → Option String)
  enParser : Option (String → Option Int)
  punct : Option (String → Option (List String))
  ltPl : Option (String → Option String)
  ltEn : Option (String → Option String)

/-- All collaborators unavailable. -/
def noCollabs : Collabs := ⟨none, none, none, none, none, none⟩

/-- `str.startswith`, on the character lists (the byte-based core
`String.startsWith` does not reduce in the kernel). -/
def pyStartsWith (s pre : String) : Bool := pre.data.isPrefixOf s.data

/-- `detect_language`: default `"pl"` when the detector is absent or fails;
`"en"` only when the detected tag starts with `"en"`. -/
def detectLanguage (d : Option (String → Option String)) (text : String) : String :=
  match d with
  | none => "pl"
  | some f =>
      match f text with
      | none => "pl"
      | some lang => if pyStartsWith lang "en" then "en" else "pl"

/-- `inverse_text_normalize`: Polish routes to the external normalizer when
present (failure yields the input), English to `_en_itn`, anything else
passes through. -/
def inverseTextNormalize (c : Collabs) (lang : String) (text : String) : String :=
  if lang = "pl" then
    match c.plNorm with
    | some f => (f text).getD text
    | none => text
  else if lang = "en" then enItn c.enParser text
  else text

/-- `restore_punctuation`: join the model's segments with single spaces; an
absent model, a failure, or an empty segment list yields the input. -/
def restorePunctuation (m : Option (String → Option (List String))) (text : String) : String :=
  match m with
  | none => text
  | some f =>
      match f text with
      | none => text
      | some segs => if segs.isEmpty then text else String.intercalate " " segs

/-- `apply_user_replacements`'s loop over already-fetched rules: skip rules
whose language filter does not match; an exception (`none`) from a
substitution is caught and the text accumulated so far is returned. -/
def applyUserLoop (lang : String) : List URule → List Char → List Char
  | [], t => t
  | (r, filt) :: rs, t =>
      if filt.isSome && filt ≠ some lang then applyUserLoop lang rs t
      else
        match applyRuleL r t with
        | none => t
        | some t2 => applyUserLoop lang rs t2

/-- `apply_user_replacements(text, lang)` on a fetched rule list. -/
def applyUserReplacements (text : String) (lang : String) (rules : List URule) : String :=
  ⟨applyUserLoop lang rules text.data⟩

/-- `correct_grammar`: the language-specific tool (modelled as the composite
`check`-then-`correct` call); absence or failure yields the input. -/
def correctGrammar (tool : Option (String → Option String)) (text : String) : String :=
  match tool with
  | none => text
  | some f => (f text).getD text

/-- Python truthiness of `text` and `text.strip()`: the input guard fires on
an empty or whitespace-only string. -/
def isBlank (text : String) : Bool := text.data.isEmpty || (pyStrip text.data).isEmpty

/-- `run_pipeline(text)` given the collaborators and the user rules the
store returned for this invocation. -/
def runPipelineRules (c : Collabs) (rules : List URule) (text : String) : String :=
  if isBlank text then text
  else
    let lang := detectLanguage c.detect text
    let t1 := removeFillers text lang
    let t2 := inverseTextNormalize c lang t1
    let t3 := restorePunctuation c.punct t2
    let t4 := applyWordCorrections t3 lang
    let t5 := applyUserReplacements t4 lang rules
    correctGrammar (if lang = "pl" then c.ltPl else c.ltEn) t5

/-- `run_pipeline` including the store access of stage 4.7: the result is
`none` when `_get_user_replacements` raises (nothing catches that call). -/
def runPipelineFS (c : Collabs) (fs : StoreFs) (s : StoreState) (text : String) :
    Option (String × StoreState) :=
  if isBlank text then some (text, s)
  else
    match getUserReplacements fs s with
    | none => none
    | some (s2, rules) => some (runPipelineRules c rules text, s2)

/-! ### Static analyses of patterns, used to discharge side conditions -/

/-- A lower bound on the number of characters any successful match of the
pattern consumes (`fail` has no matches, so any bound is sound there). -/
def minConsume : Rx → Nat
  | .fail => 1
  | .eps => 0
  | .ch _ => 1
  | .cat r1 r2 => minConsume r1 + minConsume r2
  | .alt r1 r2 => min (minConsume r1) (minConsume r2)
  | .star _ => 0
  | .wordB => 0
  | .look _ => 0
  | .grp _ r1 => minConsume r1

/-- Does every successful match of the pattern record a capture for group
`g`?  (Lookaheads discard their captures; a star may iterate zero times.) -/
def capturesGroup : Rx → Nat → Bool
  | .fail, _ => true
  | .eps, _ => false
  | .ch _, _ => false
  | .cat r1 r2, g => capturesGroup r1 g || capturesGroup r2 g
  | .alt r1 r2, g => capturesGroup r1 g && capturesGroup r2 g
  | .star _, _ => false
  | .wordB, _ => false
  | .look _, _ => false
  | .grp i r1, g => i == g || capturesGroup r1 g

/-- Is every backreference of the template guaranteed a capture by the
pattern (and the template free of invalid escapes)? -/
def tmplOK (pat : Rx) : List Char → Bool
  | [] => true
  | c :: rest =>
      if c = '\\' then
        match rest with
        | [] => false
        | d :: rest2 =>
            (if d.isDigit then capturesGroup pat (d.toNat - 48) else decide (d = '\\')) &&
              tmplOK pat rest2
      else tmplOK pat rest

/-- Sufficient condition for a rule's substitution never to raise: a
backreference template only references guaranteed groups; a plain template
is non-empty and the pattern cannot match the empty string. -/
def ruleOK (r : CRule) : Bool :=
  if hasBackref r.replacement.data then tmplOK r.pat r.replacement.data
  else !(r.replacement == "") && decide (1 ≤ minConsume r.pat)

/-! ### Spec-side definitions

These re-state, in the specification's own words, what selected claims say;
the theorems below compare them with the code-derived definitions. -/

/-- Python `str.upper`. -/
def pyUpperStr (s : String) : String := ⟨s.data.map pyToUpper⟩

/-- Upper-case only the first character. -/
def capFirst (s : String) : String :=
  match s.data with
  | [] => ""
  | c :: rest => ⟨pyToUpper c :: rest⟩

/-- The first character exists and is uppercase. -/
def firstUpper (s : String) : Bool :=
  match s.data with
  | [] => false
  | c :: _ => pyIsUpperChar c

/-- Literally: only the first character of the string is uppercase. -/
def onlyFirstUpper (s : String) : Bool :=
  match s.data with
  | [] => false
  | c :: rest => pyIsUpperChar c && rest.all (fun x => !pyIsUpperChar x)

/-- The substituted text exactly as the claim words it: the replacement fully
upper-cased if the entire matched span is uppercase; the replacement with
only its first character upper-cased if *only* the first character of the
match is uppercase; otherwise the replacement exactly as given. -/
def claimSubstituted (replacement original : String) : String :=
  if pyIsUpper original.data then pyUpperStr replacement
  else if onlyFirstUpper original then capFirst replacement
  else replacement

/-- The claim amended to the code's actual branch condition: the second case
fires whenever the first character of the match is uppercase (and the match
is not entirely uppercase), regardless of later characters. -/
def amendedSubstituted (replacement original : String) : String :=
  if pyIsUpper original.data then pyUpperStr replacement
  else if firstUpper original then capFirst replacement
  else replacement

/-- The `from` field as the spec describes it: present and a non-empty
string. -/
def specFrom (e : JVal) : Option String :=
  match e with
  | .jobj fields =>
      match jlookup fields "from" with
      | some (.jstr s) => if s = "" then none else some s
      | _ => none
  | _ => none

/-- The `to` field as the spec describes it: present and a string (possibly
empty). -/
def specTo (e : JVal) : Option String :=
  match e with
  | .jobj fields =>
      match jlookup fields "to" with
      | some (.jstr t) => some t
      | _ => none
  | _ => none

/-- The language filter as the spec describes it: kept when it is a
supported tag, dropped otherwise. -/
def specLang (e : JVal) : Option String :=
  match e with
  | .jobj fields =>
      match jlookup fields "lang" with
      | some (.jstr "pl") => some "pl"
      | some (.jstr "en") => some "en"
      | _ => none
  | _ => none

/-- One entry as the spec describes validation: loaded exactly when it has a
non-empty string `from` and a string `to`, with the filter from `lang`. -/
def specEntryRule (e : JVal) : Option URule :=
  match specFrom e, specTo e with
  | some f, some t => some (mkUserRule f t, specLang e)
  | _, _ => none

/-- The external numeral parser of the spec's scenarios (`text2num` is an
external collaborator; this model realizes the spec's
`"twenty three"` → `23` example and fails elsewhere). -/
def p23 : String → Option Int := fun s =>
  if s = "twenty three" then some 23
  else if s = "twenty" then some 20
  else none

/-! ## Lemmas about the regex engine -/

theorem rxStarIter_le
    (step : Option Char → List Char → Caps → List (Nat × Caps))
    (hstep : ∀ prev rest caps x, x ∈ step prev rest caps → x.1 ≤ rest.length) :
    ∀ fuel prev rest caps x, x ∈ rxStarIter step fuel prev rest caps →
      x.1 ≤ rest.length := by
  intro fuel
  induction fuel with
  | zero =>
      intro prev rest caps x hx
      simp [rxStarIter] at hx
      simp [hx]
  | succ n ih =>
      intro prev rest caps x hx
      simp only [rxStarIter, List.mem_append, List.mem_flatMap, List.mem_filter,
        List.mem_map, List.mem_singleton] at hx
      rcases hx with ⟨a, ⟨ha, _⟩, b, hb, rfl⟩ | rfl
      · have h1 := hstep _ _ _ _ ha
        have h2 := ih _ _ _ _ hb
        simp only [List.length_drop] at h2
        simpa using Nat.add_le_of_le_sub' h1 h2 |>.trans (by omega)
      · simp

theorem rxM_le :
    ∀ (re : Rx) prev rest caps x, x ∈ rxM re prev rest caps → x.1 ≤ rest.length := by
  intro re
  induction re with
  | fail => intro prev rest caps x hx; simp [rxM] at hx
  | eps =>
      intro prev rest caps x hx
      simp [rxM] at hx; simp [hx]
  | ch p =>
      intro prev rest caps x hx
      cases rest with
      | nil => simp [rxM] at hx
      | cons c t =>
          simp only [rxM] at hx
          by_cases hp : p c
          · simp [hp] at hx; simp [hx]
          · simp [hp] at hx
  | cat r1 r2 ih1 ih2 =>
      intro prev rest caps x hx
      simp only [rxM, List.mem_flatMap, List.mem_map] at hx
      rcases hx with ⟨a, ha, b, hb, rfl⟩
      have h1 := ih1 _ _ _ _ ha
      have h2 := ih2 _ _ _ _ hb
      simp only [List.length_drop] at h2
      simp; omega
  | alt r1 r2 ih1 ih2 =>
      intro prev rest caps x hx
      simp only [rxM, List.mem_append] at hx
      rcases hx with h | h
      · exact ih1 _ _ _ _ h
      · exact ih2 _ _ _ _ h
  | star r1 ih =>
      intro prev rest caps x hx
      simp only [rxM] at hx
      exact rxStarIter_le _ (fun p r c y hy => ih p r c y hy) _ _ _ _ _ hx
  | wordB =>
      intro prev rest caps x hx
      simp only [rxM] at hx
      split at hx
      · simp at hx; simp [hx]
      · simp at hx
  | look r1 ih =>
      intro prev rest caps x hx
      simp only [rxM] at hx
      split at hx
      · simp at hx
      · simp at hx; simp [hx]
  | grp i r1 ih =>
      intro prev rest caps x hx
      simp only [rxM, List.mem_map] at hx
      rcases hx with ⟨a, ha, rfl⟩
      have := ih prev rest caps a ha
      simpa using this

theorem rxM_minConsume :
    ∀ (re : Rx) prev rest caps x, x ∈ rxM re prev rest caps → minConsume re ≤ x.1 := by
  intro re
  induction re with
  | fail => intro prev rest caps x hx; simp [rxM] at hx
  | eps =>
      intro prev rest caps x hx
      simp [rxM] at hx; simp [hx, minConsume]
  | ch p =>
      intro prev rest caps x hx
      cases rest with
      | nil => simp [rxM] at hx
      | cons c t =>
          simp only [rxM] at hx
          by_cases hp : p c
          · simp [hp] at hx; simp [hx, minConsume]
          · simp [hp] at hx
  | cat r1 r2 ih1 ih2 =>
      intro prev rest caps x hx
      simp only [rxM, List.mem_flatMap, List.mem_map] at hx
      rcases hx with ⟨a, ha, b, hb, rfl⟩
      have h1 := ih1 _ _ _ _ ha
      have h2 := ih2 _ _ _ _ hb
      simp [minConsume]; omega
  | alt r1 r2 ih1 ih2 =>
      intro prev rest caps x hx
      simp only [rxM, List.mem_append] at hx
      rcases hx with h | h
      · exact le_trans (by simp [minConsume]) (ih1 _ _ _ _ h)
      · exact le_trans (by simp [minConsume]) (ih2 _ _ _ _ h)
  | star r1 ih =>
      intro prev rest caps x hx
      simp [minConsume]
  | wordB =>
      intro prev rest caps x hx
      simp [minConsume]
  | look r1 ih =>
      intro prev rest caps x hx
      simp [minConsume]
  | grp i r1 ih =>
      intro prev rest caps x hx
      simp only [rxM, List.mem_map] at hx
      rcases hx with ⟨a, ha, rfl⟩
      have := ih prev rest caps a ha
      simpa using this

theorem rxStarIter_caps
    (step : Option Char → List Char → Caps → List (Nat × Caps))
    (hstep : ∀ prev rest caps x, x ∈ step prev rest caps →
      ∃ pre, x.2 = pre ++ caps) :
    ∀ fuel prev rest caps x, x ∈ rxStarIter step fuel prev rest caps →
      ∃ pre, x.2 = pre ++ caps := by
  intro fuel
  induction fuel with
  | zero =>
      intro prev rest caps x hx
      simp [rxStarIter] at hx
      exact ⟨[], by simp [hx]⟩
  | succ n ih =>
      intro prev rest caps x hx
      simp only [rxStarIter, List.mem_append, List.mem_flatMap, List.mem_filter,
        List.mem_map, List.mem_singleton] at hx
      rcases hx with ⟨a, ⟨ha, _⟩, b, hb, rfl⟩ | rfl
      · obtain ⟨p1, hp1⟩ := hstep _ _ _ _ ha
        obtain ⟨p2, hp2⟩ := ih _ _ _ _ hb
        exact ⟨p2 ++ p1, by simp [hp2, hp1]⟩
      · exact ⟨[], by simp⟩

theorem rxM_caps :
    ∀ (re : Rx) prev rest caps x, x ∈ rxM re prev rest caps →
      ∃ pre, x.2 = pre ++ caps := by
  intro re
  induction re with
  | fail => intro prev rest caps x hx; simp [rxM] at hx
  | eps =>
      intro prev rest caps x hx
      simp [rxM] at hx
      exact ⟨[], by simp [hx]⟩
  | ch p =>
      intro prev rest caps x hx
      cases rest with
      | nil => simp [rxM] at hx
      | cons c t =>
          simp only [rxM] at hx
          by_cases hp : p c
          · simp [hp] at hx; exact ⟨[], by simp [hx]⟩
          · simp [hp] at hx
  | cat r1 r2 ih1 ih2 =>
      intro prev rest caps x hx
      simp only [rxM, List.mem_flatMap, List.mem_map] at hx
      rcases hx with ⟨a, ha, b, hb, rfl⟩
      obtain ⟨p1, hp1⟩ := ih1 _ _ _ _ ha
      obtain ⟨p2, hp2⟩ := ih2 _ _ _ _ hb
      exact ⟨p2 ++ p1, by simp [hp2, hp1]⟩
  | alt r1 r2 ih1 ih2 =>
      intro prev rest caps x hx
      simp only [rxM, List.mem_append] at hx
      rcases hx with h | h
      · exact ih1 _ _ _ _ h
      · exact ih2 _ _ _ _ h
  | star r1 ih =>
      intro prev rest caps x hx
      simp only [rxM] at hx
      exact rxStarIter_caps _ (fun p r c y hy => ih p r c y hy) _ _ _ _ _ hx
  | wordB =>
      intro prev rest caps x hx
      simp only [rxM] at hx
      split at hx
      · simp at hx; exact ⟨[], by simp [hx]⟩
      · simp at hx
  | look r1 ih =>
      intro prev rest caps x hx
      simp only [rxM] at hx
      split at hx
      · simp at hx
      · simp at hx; exact ⟨[], by simp [hx]⟩
  | grp i r1 ih =>
      intro prev rest caps x hx
      simp only [rxM, List.mem_map] at hx
      rcases hx with ⟨a, ha, rfl⟩
      obtain ⟨p1, hp1⟩ := ih _ _ _ _ ha
      exact ⟨(i, rest.take a.1) :: p1, by simp [hp1]⟩

theorem capsLookup_append_isSome (l1 l2 : Caps) (g : Nat)
    (h : (capsLookup l2 g).isSome) : (capsLookup (l1 ++ l2) g).isSome := by
  induction l1 with
  | nil => simpa using h
  | cons a t ih =>
      obtain ⟨i, s⟩ := a
      simp only [List.cons_append, capsLookup]
      split
      · rfl
      · exact ih

theorem rxM_capturesGroup (g : Nat) :
    ∀ (re : Rx), capturesGroup re g = true →
      ∀ prev rest caps x, x ∈ rxM re prev rest caps →
        (capsLookup x.2 g).isSome := by
  intro re
  induction re with
  | fail => intro _ prev rest caps x hx; simp [rxM] at hx
  | eps => intro h; simp [capturesGroup] at h
  | ch p => intro h; simp [capturesGroup] at h
  | cat r1 r2 ih1 ih2 =>
      intro h prev rest caps x hx
      simp only [rxM, List.mem_flatMap, List.mem_map] at hx
      rcases hx with ⟨a, ha, b, hb, rfl⟩
      simp only [capturesGroup, Bool.or_eq_true] at h
      by_cases h2 : capturesGroup r2 g = true
      · have := ih2 h2 _ _ _ _ hb
        simpa using this
      · have h1 : capturesGroup r1 g = true := by
          rcases h with h | h
          · exact h
          · exact absurd h h2
        have ha' := ih1 h1 _ _ _ _ ha
        obtain ⟨p2, hp2⟩ := rxM_caps r2 _ _ _ _ hb
        simp only [hp2]
        exact capsLookup_append_isSome _ _ _ ha'
  | alt r1 r2 ih1 ih2 =>
      intro h prev rest caps x hx
      simp only [capturesGroup, Bool.and_eq_true] at h
      simp only [rxM, List.mem_append] at hx
      rcases hx with hm | hm
      · exact ih1 h.1 _ _ _ _ hm
      · exact ih2 h.2 _ _ _ _ hm
  | star r1 ih => intro h; simp [capturesGroup] at h
  | wordB => intro h; simp [capturesGroup] at h
  | look r1 ih => intro h; simp [capturesGroup] at h
  | grp i r1 ih =>
      intro h prev rest caps x hx
      simp only [rxM, List.mem_map] at hx
      rcases hx with ⟨a, ha, rfl⟩
      simp only [capsLookup]
      split
      · rfl
      · rename_i hne
        simp only [capturesGroup, Bool.or_eq_true, beq_iff_eq] at h
        rcases h with h | h
        · exact absurd h hne
        · exact ih h _ _ _ _ ha

theorem rxSubGo_isSome (r : Rx) (f : List Char → Caps → Option (List Char))
    (recur : Option Char → List Char → Option (List Char))
    (hrec : ∀ prev rest, (recur prev rest).isSome)
    (hf : ∀ prev rest x, x ∈ rxM r prev rest [] →
      (f (rest.take x.1) x.2).isSome)
    (prev : Option Char) (rest : List Char) :
    (rxSubGo r f recur prev rest).isSome := by
  unfold rxSubGo
  cases hh : (rxM r prev rest []).head? with
  | none =>
      cases rest with
      | nil => simp
      | cons c rest2 =>
          have := hrec (some c) rest2
          cases h2 : recur (some c) rest2 with
          | none => rw [h2] at this; simp at this
          | some t => simp [h2]
  | some x =>
      have hmem : x ∈ rxM r prev rest [] :=
        List.mem_of_mem_head? (by rw [hh]; rfl)
      have hfx := hf prev rest x hmem
      by_cases h0 : x.1 = 0
      · simp only [h0, if_pos rfl]
        rw [h0, List.take_zero] at hfx
        cases hfv : f [] x.2 with
        | none => rw [hfv] at hfx; simp at hfx
        | some rep =>
            cases rest with
            | nil => simp
            | cons c rest2 =>
                have := hrec (some c) rest2
                cases h2 : recur (some c) rest2 with
                | none => rw [h2] at this; simp at this
                | some t => simp [h2]
      · simp only [if_neg h0]
        cases hfv : f (rest.take x.1) x.2 with
        | none => rw [hfv] at hfx; simp at hfx
        | some rep =>
            have := hrec (prevAfter prev rest x.1) (rest.drop x.1)
            cases h2 : recur (prevAfter prev rest x.1) (rest.drop x.1) with
            | none => rw [h2] at this; simp at this
            | some t => simp [h2]

theorem rxSubFuel_isSome (r : Rx) (f : List Char → Caps → Option (List Char))
    (hf : ∀ prev rest x, x ∈ rxM r prev rest [] →
      (f (rest.take x.1) x.2).isSome) :
    ∀ fuel prev rest, (rxSubFuel r f fuel prev rest).isSome := by
  intro fuel
  induction fuel with
  | zero => intro prev rest; simp [rxSubFuel]
  | succ n ih =>
      intro prev rest
      rw [rxSubFuel]
      exact rxSubGo_isSome r f _ (fun p q => ih p q) hf prev rest

theorem rxSub_isSome (r : Rx) (f : List Char → Caps → Option (List Char))
    (hf : ∀ prev rest x, x ∈ rxM r prev rest [] →
      (f (rest.take x.1) x.2).isSome) (s : List Char) :
    (rxSub r f s).isSome :=
  rxSubFuel_isSome r f hf _ _ _

theorem rxM_nil_eq_nil (r : Rx) (h : 1 ≤ minConsume r)
    (prev : Option Char) (caps : Caps) : rxM r prev [] caps = [] := by
  cases hh : rxM r prev [] caps with
  | nil => rfl
  | cons x t =>
      have hmem : x ∈ rxM r prev [] caps := by rw [hh]; exact List.mem_cons_self _ _
      have h1 := rxM_le r prev [] caps x hmem
      have h2 := rxM_minConsume r prev [] caps x hmem
      simp at h1
      omega

theorem rxSub_nil (r : Rx) (f : List Char → Caps → Option (List Char))
    (h : 1 ≤ minConsume r) : rxSub r f [] = some [] := by
  show rxSubGo r f (rxSubFuel r f 0) none [] = some []
  unfold rxSubGo
  rw [rxM_nil_eq_nil r h]
  simp

/-! ## Totality of rule application -/

theorem expandTemplate_cons (c : Char) (rest : List Char) (caps : Caps) :
    expandTemplate (c :: rest) caps =
      if c = '\\' then
        match rest with
        | [] => none
        | d :: rest2 =>
            if d.isDigit then
              match capsLookup caps (d.toNat - 48) with
              | some s => (expandTemplate rest2 caps).map (s ++ ·)
              | none => none
            else if d = '\\' then (expandTemplate rest2 caps).map ('\\' :: ·)
            else none
      else (expandTemplate rest caps).map (c :: ·) := by
  rw [expandTemplate.eq_def]

theorem tmplOK_cons (pat : Rx) (c : Char) (rest : List Char) :
    tmplOK pat (c :: rest) =
      if c = '\\' then
        match rest with
        | [] => false
        | d :: rest2 =>
            (if d.isDigit then capturesGroup pat (d.toNat - 48) else decide (d = '\\')) &&
              tmplOK pat rest2
      else tmplOK pat rest := by
  rw [tmplOK.eq_def]

theorem expandTemplate_isSome (pat : Rx) (caps : Caps)
    (hcaps : ∀ g, capturesGroup pat g = true → (capsLookup caps g).isSome) :
    ∀ (n : Nat) (tmpl : List Char), tmpl.length ≤ n → tmplOK pat tmpl = true →
      (expandTemplate tmpl caps).isSome := by
  intro n
  induction n with
  | zero =>
      intro tmpl hlen _
      have : tmpl = [] := List.eq_nil_of_length_eq_zero (Nat.le_zero.mp hlen)
      subst this
      simp [expandTemplate]
  | succ k ih =>
      intro tmpl hlen hok
      cases tmpl with
      | nil => simp [expandTemplate]
      | cons c rest =>
          rw [expandTemplate_cons]
          rw [tmplOK_cons] at hok
          by_cases hc : c = '\\'
          · rw [if_pos hc] at hok ⊢
            cases rest with
            | nil => simp at hok
            | cons d rest2 =>
                simp only [] at hok ⊢
                simp only [Bool.and_eq_true] at hok
                have hlen2 : rest2.length ≤ k := by
                  simp at hlen; omega
                have hrec := ih rest2 hlen2 hok.2
                by_cases hd : d.isDigit
                · rw [if_pos hd] at hok ⊢
                  have := hcaps _ hok.1
                  cases hv : capsLookup caps (d.toNat - 48) with
                  | none => rw [hv] at this; simp at this
                  | some s =>
                      cases he : expandTemplate rest2 caps with
                      | none => rw [he] at hrec; simp at hrec
                      | some e => simp
                · rw [if_neg hd] at hok ⊢
                  have hdd : d = '\\' := by simpa using hok.1
                  rw [if_pos hdd]
                  cases he : expandTemplate rest2 caps with
                  | none => rw [he] at hrec; simp at hrec
                  | some e => simp
          · rw [if_neg hc] at hok ⊢
            have hlen2 : rest.length ≤ k := by simp at hlen; omega
            have hrec := ih rest hlen2 hok
            cases he : expandTemplate rest caps with
            | none => rw [he] at hrec; simp at hrec
            | some e => simp

theorem preserveCaseList_isSome (repl orig : List Char)
    (h1 : repl ≠ []) (h2 : orig ≠ []) :
    (preserveCaseList repl orig).isSome := by
  cases orig with
  | nil => exact absurd rfl h2
  | cons c rest =>
      cases repl with
      | nil => exact absurd rfl h1
      | cons r rs =>
          unfold preserveCaseList
          split
          · simp
          · simp only []
            split <;> simp

theorem stringNeEmpty (s : String) (h : s ≠ "") : s.data ≠ [] := by
  intro hd
  apply h
  cases s with
  | mk d => cases hd; rfl

theorem applyRuleL_isSome (r : CRule) (h : ruleOK r = true) (t : List Char) :
    (applyRuleL r t).isSome := by
  unfold ruleOK at h
  unfold applyRuleL
  by_cases hb : hasBackref r.replacement.data
  · rw [if_pos hb] at h ⊢
    apply rxSub_isSome
    intro prev rest x hx
    exact expandTemplate_isSome r.pat x.2
      (fun g hg => rxM_capturesGroup g r.pat hg prev rest [] x hx)
      r.replacement.data.length r.replacement.data (le_refl _) h
  · rw [if_neg hb] at h ⊢
    simp only [Bool.and_eq_true, Bool.not_eq_true', beq_eq_false_iff_ne,
      decide_eq_true_eq] at h
    apply rxSub_isSome
    intro prev rest x hx
    apply preserveCaseList_isSome
    · exact stringNeEmpty _ h.1
    · have hle := rxM_le r.pat prev rest [] x hx
      have hmin := rxM_minConsume r.pat prev rest [] x hx
      have hx1 : 1 ≤ x.1 := le_trans h.2 hmin
      intro hnil
      have hlen0 : (rest.take x.1).length = 0 := by rw [hnil]; rfl
      rw [List.length_take] at hlen0
      omega

theorem applyRuleL_nil (r : CRule) (h : 1 ≤ minConsume r.pat) :
    applyRuleL r [] = some [] := by
  unfold applyRuleL
  split
  · exact rxSub_nil _ _ h
  · exact rxSub_nil _ _ h

theorem applyRulesLoop_eq_foldl (rules : List CRule)
    (h : ∀ r ∈ rules, ruleOK r = true) :
    ∀ t, applyRulesLoop rules t =
      rules.foldl (fun s r => (applyRuleL r s).getD s) t := by
  induction rules with
  | nil => intro t; rfl
  | cons r rs ih =>
      intro t
      have hr := h r (List.mem_cons_self _ _)
      have hs := applyRuleL_isSome r hr t
      cases hv : applyRuleL r t with
      | none => rw [hv] at hs; simp at hs
      | some t2 =>
          simp only [applyRulesLoop, hv, List.foldl_cons, Option.getD_some]
          exact ih (fun x hx => h x (List.mem_cons_of_mem _ hx)) t2

theorem builtinRules_ok : ((PL_RULES ++ EN_RULES).all ruleOK) = true := by decide

/-! ## Lemmas about space collapsing and stripping -/

/-- No two adjacent spaces anywhere in the list. -/
abbrev NoDub (l : List Char) : Prop :=
  List.Chain' (fun a b : Char => ¬(a = ' ' ∧ b = ' ')) l

theorem collapseSpaces_head? :
    ∀ l : List Char, (collapseSpaces l).head? = l.head? := by
  intro l
  induction l with
  | nil => rfl
  | cons c1 tail ih =>
      cases tail with
      | nil => rfl
      | cons c2 rest =>
          rw [collapseSpaces]
          split
          · rename_i hcc
            simp only [Bool.and_eq_true, decide_eq_true_eq] at hcc
            rw [ih]
            simp [hcc.1, hcc.2]
          · simp

theorem collapseSpaces_noDub : ∀ l : List Char, NoDub (collapseSpaces l) := by
  intro l
  induction l with
  | nil => simp [collapseSpaces]
  | cons c1 tail ih =>
      cases tail with
      | nil => simp [collapseSpaces]
      | cons c2 rest =>
          rw [collapseSpaces]
          split
          · exact ih
          · rename_i hcc
            refine List.chain'_cons'.mpr ⟨?_, ih⟩
            intro y hy
            rw [collapseSpaces_head?] at hy
            simp at hy
            subst hy
            simp only [Bool.and_eq_true, decide_eq_true_eq] at hcc
            tauto

theorem collapseSpaces_of_noDub : ∀ l : List Char, NoDub l → collapseSpaces l = l := by
  intro l
  induction l with
  | nil => intro _; rfl
  | cons c1 tail ih =>
      cases tail with
      | nil => intro _; rfl
      | cons c2 rest =>
          intro h
          have h1 := List.chain'_cons'.mp h
          have hcc : ¬(c1 = ' ' ∧ c2 = ' ') := h1.1 c2 (by simp)
          rw [collapseSpaces, if_neg (by simpa using hcc)]
          rw [ih h1.2]

theorem pyStrip_eq (l : List Char) :
    pyStrip l = List.rdropWhile isPyWs (List.dropWhile isPyWs l) := rfl

theorem pyStrip_within (l : List Char) : pyStrip l <:+: l := by
  rw [pyStrip_eq]
  have h1 : List.rdropWhile isPyWs (List.dropWhile isPyWs l) <+:
      List.dropWhile isPyWs l := List.rdropWhile_prefix _ _
  have h2 : List.dropWhile isPyWs l <:+ l := List.dropWhile_suffix _
  have h3 := List.IsPrefix.isInfix h1
  have h4 := List.IsSuffix.isInfix h2
  exact List.IsInfix.trans h3 h4

theorem pyStrip_noDub (l : List Char) (h : NoDub l) : NoDub (pyStrip l) :=
  List.Chain'.infix h (pyStrip_within l)

theorem pyStrip_idem (l : List Char) : pyStrip (pyStrip l) = pyStrip l := by
  rw [pyStrip_eq, pyStrip_eq]
  have h1 : List.dropWhile isPyWs (List.rdropWhile isPyWs (List.dropWhile isPyWs l)) =
      List.rdropWhile isPyWs (List.dropWhile isPyWs l) := by
    obtain ⟨t, ht⟩ := List.rdropWhile_prefix isPyWs (List.dropWhile isPyWs l)
    cases hB : List.rdropWhile isPyWs (List.dropWhile isPyWs l) with
    | nil => rfl
    | cons b B2 =>
        rw [hB] at ht
        have hA2 : List.dropWhile isPyWs l = b :: (B2 ++ t) := by
          rw [← ht]; rfl
        have hne : List.dropWhile isPyWs l ≠ [] := by
          rw [hA2]; exact List.cons_ne_nil _ _
        have hnb := List.head_dropWhile_not isPyWs l hne
        simp only [hA2, List.head_cons] at hnb
        rw [List.dropWhile_cons, if_neg (by simp [hnb])]
  rw [h1, List.rdropWhile_idempotent]

/-! ## Lemmas about the user-rule loader -/

theorem entryRule_eq_spec (e : JVal) : entryRule e = specEntryRule e := by
  cases e with
  | jnull => rfl
  | jbool b => rfl
  | jnum n => rfl
  | jstr s => rfl
  | jarr l => rfl
  | jobj fields =>
      simp only [entryRule, specEntryRule, specFrom, specTo, specLang]
      cases hf : jlookup fields "from" with
      | none => rfl
      | some v =>
          cases v with
          | jstr f =>
              simp only []
              by_cases hf0 : f = ""
              · simp [hf0]
              · simp only [if_neg hf0]
                cases ht : jlookup fields "to" with
                | none => rfl
                | some w =>
                    cases w with
                    | jstr t => rfl
                    | jnull => rfl
                    | jbool b => rfl
                    | jnum n => rfl
                    | jarr l2 => rfl
                    | jobj f2 => rfl
          | jnull => rfl
          | jbool b => rfl
          | jnum n => rfl
          | jarr l2 => rfl
          | jobj f2 => rfl

theorem loadRulesLoop_eq_filterMap (entries : List JVal) :
    loadRulesLoop entries = entries.filterMap specEntryRule := by
  induction entries with
  | nil => rfl
  | cons e rest ih =>
      rw [loadRulesLoop, entryRule_eq_spec, List.filterMap_cons]
      cases specEntryRule e with
      | none => exact ih
      | some r => rw [ih]

/-! ## Stage helper lemmas -/

theorem itn_none_empty (c : Collabs) (hpl : c.plNorm = none)
    (hen : c.enParser = none) (lang : String) :
    inverseTextNormalize c lang "" = "" := by
  unfold inverseTextNormalize
  split
  · rw [hpl]
  · split
    · rw [hen]; rfl
    · rfl

theorem applyWordCorrections_empty (lang : String) :
    applyWordCorrections "" lang = "" := by
  unfold applyWordCorrections
  split
  · rfl
  · rfl

theorem applyUserLoop_nil (lang : String) :
    ∀ rules : List URule, (∀ ru ∈ rules, 1 ≤ minConsume ru.1.pat) →
      applyUserLoop lang rules [] = [] := by
  intro rules
  induction rules with
  | nil => intro _; rfl
  | cons ru rs ih =>
      intro h
      obtain ⟨r, filt⟩ := ru
      rw [applyUserLoop.eq_def]
      simp only []
      split
      · exact ih (fun x hx => h x (List.mem_cons_of_mem _ hx))
      · rw [applyRuleL_nil r (h (r, filt) (List.mem_cons_self _ _))]
        exact ih (fun x hx => h x (List.mem_cons_of_mem _ hx))

/-! ## The claims -/

/-- C1, counterexample: the claim's second condition reads "only the first
character of the match is uppercase".  For the match `"ItS"` (first character
uppercase, but also `S`), that condition is false, so the claim's formula
yields the replacement `"it's"` unchanged — yet the code capitalizes it: the
built-in `its`-rule really rewrites `"ItS not"` to `"It's not"`. -/
theorem c1_counterexample :
    preserveCaseList "it's".data "ItS".data ≠
      some (claimSubstituted "it's" "ItS").data ∧
    applyWordCorrections "ItS not" "en" = "It's not" :=
  ⟨by decide, by rfl⟩

/-- C1, amended: the substituted text for a match is the replacement fully
upper-cased when the match satisfies Python `isupper`; otherwise, the
replacement with its first character upper-cased whenever the match's first
character is uppercase (regardless of later characters); otherwise the
replacement exactly as given.  `"ITS" → "IT'S"`, `"Its" → "It's"`,
`"its" → "it's"` follow. -/
theorem c1_case_preservation (replacement original : String)
    (h1 : original ≠ "") (h2 : replacement ≠ "") :
    preserveCaseList replacement.data original.data =
      some (amendedSubstituted replacement original).data := by
  by_cases hu : pyIsUpper original.data
  · simp [preserveCaseList, amendedSubstituted, hu, pyUpperStr]
  · cases ho : original.data with
    | nil => exact absurd ho (stringNeEmpty _ h1)
    | cons c rest =>
        rw [ho] at hu
        by_cases hc : pyIsUpperChar c
        · cases hr : replacement.data with
          | nil => exact absurd hr (stringNeEmpty _ h2)
          | cons r rs =>
              simp [preserveCaseList, amendedSubstituted, firstUpper, capFirst,
                hu, ho, hc, hr]
        · simp [preserveCaseList, amendedSubstituted, firstUpper, capFirst,
            hu, ho, hc]

/-- C1, witness: the amended law at the spec's own example `"ITS"`. -/
theorem c1_witness :
    preserveCaseList "it's".data "ITS".data =
      some (amendedSubstituted "it's" "ITS").data ∧
    amendedSubstituted "it's" "ITS" = "IT'S" :=
  ⟨c1_case_preservation "it's" "ITS" (by decide) (by decide), by decide⟩

/-- C2: `run_pipeline` CAN raise.  With the user-replacement resource holding
`{"rules": null}` (changed since the last check), `_load_user_replacements`
iterates `enumerate(None)` — a `TypeError` that no handler catches, because
`apply_user_replacements` calls `_get_user_replacements()` outside its
`try`.  The embedded pipeline evaluates to `none` (exception) on the
ordinary input `"hello"`. -/
theorem c2_pipeline_raises_on_malformed_rules :
    runPipelineFS noCollabs (some (1, some (.jobj [("rules", .jnull)])))
      ⟨[], none⟩ "hello" = none := by rfl

/-- C3, counterexample: filler stripping is not idempotent.  Removing
`"like"` from `"you like know"` juxtaposes `"you"` and `"know"` into the
filler phrase `"you know"`, which only the second application removes. -/
theorem c3_counterexample :
    removeFillers (removeFillers "you like know" "en") "en" ≠
      removeFillers "you like know" "en" := by decide

/-- C3, amended: filler stripping is idempotent on every input whose first
application's output contains no further filler occurrence (the general case
fails only when removals juxtapose words into a new filler phrase). -/
theorem c3_filler_idempotent_amended (text lang : String)
    (h : fillerSub lang (removeFillers text lang).data =
      (removeFillers text lang).data) :
    removeFillers (removeFillers text lang) lang = removeFillers text lang := by
  have hdata : (removeFillers text lang).data =
      pyStrip (collapseSpaces (fillerSub lang text.data)) := rfl
  show (⟨pyStrip (collapseSpaces (fillerSub lang (removeFillers text lang).data))⟩ :
    String) = removeFillers text lang
  rw [h, hdata]
  rw [collapseSpaces_of_noDub _ (pyStrip_noDub _ (collapseSpaces_noDub _))]
  rw [pyStrip_idem]
  rfl

/-- C3, witness: the amended idempotence at `"hello um world"`. -/
theorem c3_witness :
    removeFillers (removeFillers "hello um world" "en") "en" =
      removeFillers "hello um world" "en" :=
  c3_filler_idempotent_amended "hello um world" "en" (by decide)

/-- C4: `get()` behaviour of the user replacement store.  Unchanged
timestamp: the cache is returned as-is, independently of the resource
contents (the content argument does not occur in the result).  Changed
timestamp: the rules are reloaded and the cache replaced.  Missing resource:
cache and remembered timestamp are cleared; once cleared, further calls
while missing return the empty sequence from the same cleared state. -/
theorem c4_store_get :
    (∀ (m : Nat) (c : Option JVal) (s : StoreState), s.mtime = some m →
      getUserReplacements (some (m, c)) s = some (s, s.rules)) ∧
    (∀ (m : Nat) (c : Option JVal) (s : StoreState) (rules : List URule),
      s.mtime ≠ some m → loadUserReplacements c = some rules →
      getUserReplacements (some (m, c)) s = some (⟨rules, some m⟩, rules)) ∧
    (∀ s : StoreState, s.mtime.isSome →
      getUserReplacements none s = some (⟨[], none⟩, [])) ∧
    getUserReplacements none ⟨[], none⟩ = some (⟨[], none⟩, []) := by
  refine ⟨?_, ?_, ?_, rfl⟩
  · intro m c s h
    simp [getUserReplacements, h]
  · intro m c s rules h hl
    simp [getUserReplacements, if_neg h, hl]
  · intro s h
    simp [getUserReplacements, h]

/-- C4, witness: the unchanged-timestamp case at a concrete store state. -/
theorem c4_witness :
    getUserReplacements (some (3, some (.jarr []))) ⟨[], some 3⟩ =
      some (⟨[], some 3⟩, []) :=
  c4_store_get.1 3 (some (.jarr [])) ⟨[], some 3⟩ rfl

/-- C5: a rule whose template contains a positional backreference is applied
by literal template substitution — the case-preserving replacer is not
involved, for any input and any match.  Concretely, the backreferenced
comparative rule maps `"MORE THEN"` to `"MORE than"` (no upper-casing of the
template). -/
theorem c5_backref_literal :
    (∀ (r : CRule) (t : List Char), hasBackref r.replacement.data = true →
      applyRuleL r t =
        rxSub r.pat (fun _ caps => expandTemplate r.replacement.data caps) t) ∧
    applyWordCorrections "MORE THEN" "en" = "MORE than" := by
  constructor
  · intro r t h
    unfold applyRuleL
    rw [if_pos h]
  · rfl

/-- C5, witness: the literal-substitution law at the comparative rule. -/
theorem c5_witness :
    applyRuleL (EN_RULES.getD 6 ⟨.fail, "", ""⟩) "more then".data =
      rxSub (EN_RULES.getD 6 ⟨.fail, "", ""⟩).pat
        (fun _ caps =>
          expandTemplate (EN_RULES.getD 6 ⟨.fail, "", ""⟩).replacement.data caps)
        "more then".data :=
  c5_backref_literal.1 _ _ (by decide)

/-- C6: in the English numeral-run merger, a run on which the parser fails
is emitted unchanged (failure is local to the run); a successful run whose
raw match differs from its trim and ends in a space gets exactly one space
appended after the digits.  With the spec's parser, `"twenty three"` becomes
`"23"`, a consumed trailing space is preserved (`"twenty three cats"` →
`"23 cats"`), and a failing run stays put while the other run converts
(`"twenty cats and five dogs"` → `"20 cats and five dogs"`). -/
theorem c6_numeral_runs :
    (∀ (p : String → Option Int) (raw : List Char),
      p ⟨pyStrip raw⟩ = none → itnReplace p raw = some raw) ∧
    (∀ (p : String → Option Int) (raw : List Char) (n : Int),
      p ⟨pyStrip raw⟩ = some n → raw ≠ pyStrip raw → raw.getLast? = some ' ' →
      itnReplace p raw = some ((toString n).data ++ [' '])) ∧
    enItn (some p23) "twenty three" = "23" ∧
    enItn (some p23) "twenty three cats" = "23 cats" ∧
    enItn (some p23) "twenty cats and five dogs" = "20 cats and five dogs" := by
  refine ⟨?_, ?_, by rfl, by rfl, by rfl⟩
  · intro p raw h
    simp [itnReplace, h]
  · intro p raw n h hne hlast
    simp [itnReplace, h, hne, hlast]

/-- C6, witness: failure locality at the run `"and five "`. -/
theorem c6_witness :
    itnReplace p23 "and five ".data = some "and five ".data :=
  c6_numeral_runs.1 p23 "and five ".data (by decide)

/-- C7: loading user rules validates entries exactly as the spec words it —
an entry is loaded iff it carries a non-empty string `from` and a string
`to` (empty `to` = deletion rule), an unsupported `lang` merely drops the
filter, and skipped entries do not disturb the others.  A concrete mixed
batch loads only its two valid rules, the second with its filter dropped. -/
theorem c7_loader_validation :
    (∀ entries : List JVal,
      loadRulesLoop entries = entries.filterMap specEntryRule) ∧
    loadUserReplacements (some (.jarr
      [.jobj [("from", .jstr "teh"), ("to", .jstr "the")],
       .jobj [("from", .jstr "")],
       .jobj [("from", .jstr "x"), ("to", .jnum 3)],
       .jobj [("from", .jstr "ok"), ("to", .jstr ""), ("lang", .jstr "de")]])) =
    some [(mkUserRule "teh" "the", none), (mkUserRule "ok" "", none)] :=
  ⟨loadRulesLoop_eq_filterMap, by rfl⟩

/-- C8, counterexample: the pipeline does not short-circuit after filler
stripping.  For `"um like you know"` (detected English) the filler result is
the empty string, but an available punctuation collaborator still transforms
it, so the final result is not that empty string. -/
theorem c8_counterexample :
    removeFillers "um like you know" "en" = "" ∧
    runPipelineRules ⟨some (fun _ => some "en"), none, none,
        some (fun _ => some ["Hello."]), none, none⟩ [] "um like you know" =
      "Hello." :=
  ⟨by rfl, by rfl⟩

/-- C8, amended: (i) empty or whitespace-only input is returned unchanged,
whatever the collaborators and rules; (ii) when the input is not blank, the
filler-stripping result is empty, and the normalizer, punctuation and
grammar collaborators are unavailable, the remaining stages (ITN, built-in
corrections, user replacements over word-bounded rules) leave the empty
string unchanged and the pipeline returns `""`. -/
theorem c8_short_circuit_amended :
    (∀ (c : Collabs) (rules : List URule) (text : String),
      isBlank text = true → runPipelineRules c rules text = text) ∧
    (∀ (det : Option (String → Option String)) (rules : List URule)
      (text : String),
      isBlank text = false →
      (∀ ru ∈ rules, 1 ≤ minConsume ru.1.pat) →
      removeFillers text (detectLanguage det text) = "" →
      runPipelineRules ⟨det, none, none, none, none, none⟩ rules text = "") := by
  constructor
  · intro c rules text h
    simp [runPipelineRules, h]
  · intro det rules text hb hr hf
    simp only [runPipelineRules, hb, Bool.false_eq_true, if_false, hf]
    rw [itn_none_empty _ rfl rfl]
    rw [show restorePunctuation none "" = "" from rfl]
    rw [applyWordCorrections_empty]
    rw [show applyUserReplacements "" (detectLanguage det text) rules =
      (⟨applyUserLoop (detectLanguage det text) rules []⟩ : String) from rfl]
    rw [applyUserLoop_nil _ _ hr]
    rw [ite_self]
    rfl

/-- C8, witness: the amended law at the spec's example, with an English
detector and everything else unavailable. -/
theorem c8_witness :
    runPipelineRules ⟨some (fun _ => some "en"), none, none, none, none, none⟩
      [] "um like you know" = "" :=
  c8_short_circuit_amended.2 (some (fun _ => some "en")) [] "um like you know"
    (by decide) (by simp) (by rfl)

/-- C9: built-in word-correction rules are applied as a single left-to-right
pass in declaration order — the whole stage equals a fold of single-rule
applications, each rule seeing the full output of the previous one and no
rule ever being revisited.  The spec's chained scenario holds:
`"your going to loose alot"` → `"you're going to lose a lot"`. -/
theorem c9_rule_order :
    (∀ (text lang : String),
      applyWordCorrections text lang =
        ⟨(if lang = "pl" then PL_RULES else EN_RULES).foldl
          (fun t r => (applyRuleL r t).getD t) text.data⟩) ∧
    applyWordCorrections "your going to loose alot" "en" =
      "you're going to lose a lot" := by
  constructor
  · intro text lang
    unfold applyWordCorrections
    congr 1
    apply applyRulesLoop_eq_foldl
    intro r hr
    have hall := builtinRules_ok
    rw [List.all_eq_true] at hall
    apply hall
    rw [List.mem_append]
    by_cases hl : lang = "pl"
    · rw [if_pos hl] at hr; exact Or.inl hr
    · rw [if_neg hl] at hr; exact Or.inr hr
  · rfl

/-- C10: a deletion rule (empty replacement) hits `replacement[0]` — an
`IndexError` — exactly on a match whose first character is uppercase but
which is not `isupper`-uppercase; the user-replacement stage catches it and
returns the text with that rule and all later rules unapplied.  Concretely,
with rules `foo→bar`, `word→""`, `baz→qux`, the input `"foo Word baz"`
becomes `"bar Word baz"`: the deletion silently fails on `"Word"` and the
`baz` rule never runs. -/
theorem c10_deletion_indexerror :
    (∀ (c : Char) (rest : List Char), pyIsUpperChar c = true →
      pyIsUpper (c :: rest) = false → preserveCaseList [] (c :: rest) = none) ∧
    applyUserReplacements "foo Word baz" "en"
      [(mkUserRule "foo" "bar", none), (mkUserRule "word" "", none),
       (mkUserRule "baz" "qux", none)] = "bar Word baz" := by
  constructor
  · intro c rest hc hu
    unfold preserveCaseList
    rw [if_neg (by simp [hu])]
    simp only []
    rw [if_pos hc]
  · rfl

/-- C10, witness: the `IndexError` law at the match `"Wo"`. -/
theorem c10_witness : preserveCaseList [] ['W', 'o'] = none :=
  c10_deletion_indexerror.1 'W' ['o'] (by decide) (by decide)

end Cleanup
